import Mathlib

/-!
Shallow embedding of the eolib-rs protocol core (numeric codec, string
cipher, stream reader/writer, packet cipher, sequencer) together with
proofs settling the frozen claims about it.

Byte buffers are modelled as `List Nat` (each element a `u8` value in
`[0, 255]`); `i32` values are modelled as `Int`, with wrapping made
explicit via `wrap32` where the Rust arithmetic can overflow.  Rust
division and remainder on the domains exercised by the claims (non
negative operands) agree with `Int.ediv`/`Int.emod`, which are used
below; where a truncating division is applied to possibly negative
operands in the source, `Int.div` (truncation toward zero) is used.
-/

namespace Eolib

/-- Source src/src/data/mod.rs line 2: maximum value of an EO char. -/
def CHAR_MAX : Int := 253

/-- Source src/src/data/mod.rs line 5: maximum value of an EO short. -/
def SHORT_MAX : Int := CHAR_MAX * CHAR_MAX

/-- Source src/src/data/mod.rs line 8: maximum value of an EO three. -/
def THREE_MAX : Int := CHAR_MAX * CHAR_MAX * CHAR_MAX

/-- Source src/src/data/mod.rs line 11: maximum value of an EO int (i32::MAX). -/
def INT_MAX : Int := 2147483647

/-- Wraps an exact integer to two's-complement `i32` semantics.  The Rust
source computes `decode_number` in `i32`, which in release builds wraps on
overflow; wrapping each intermediate operation is congruent to wrapping the
exact sum once. -/
def wrap32 (x : Int) : Int := (x + 2147483648) % 4294967296 - 2147483648

/-- Source src/src/data/mod.rs lines 110-132, `encode_number`.  The four
bytes start at 254; each of bytes 3/2/1 is written only when the ORIGINAL
number reaches the corresponding MAX, as `value / MAX` cast to `u8` plus
one (the cast and the `u8` addition are modelled by the `% 256` steps),
after which the working value becomes the remainder.  Byte 0 is the final
remainder plus one.  Every caller in this development passes a non
negative value, on which domain the euclidean division and `toNat` used
here coincide with the Rust `i32` operations. -/
def encode_number (number : Int) : List Nat :=
  let n3 : Int := if THREE_MAX ≤ number then number % THREE_MAX else number
  let n2 : Int := if SHORT_MAX ≤ number then n3 % SHORT_MAX else n3
  let n1 : Int := if CHAR_MAX ≤ number then n2 % CHAR_MAX else n2
  let b3 : Nat :=
    if THREE_MAX ≤ number then ((number / THREE_MAX).toNat % 256 + 1) % 256 else 254
  let b2 : Nat :=
    if SHORT_MAX ≤ number then ((n3 / SHORT_MAX).toNat % 256 + 1) % 256 else 254
  let b1 : Nat :=
    if CHAR_MAX ≤ number then ((n2 / CHAR_MAX).toNat % 256 + 1) % 256 else 254
  let b0 : Nat := (n1.toNat % 256 + 1) % 256
  [b0, b1, b2, b3]

/-- Source src/src/data/mod.rs lines 165-175, the per-position digit of
`decode_number`: position `i` starts at 254, is replaced by `bytes[i]`
when that byte exists and is nonzero, 254 becomes 1, and the result is
decremented (the working value is never 0 before the decrement, so the
`u8` subtraction cannot underflow). -/
def decodeDigit (bytes : List Nat) (i : Nat) : Int :=
  let raw : Nat := if i < bytes.length ∧ bytes.getD i 0 ≠ 0 then bytes.getD i 0 else 254
  let raw : Nat := if raw = 254 then 1 else raw
  (raw : Int) - 1

/-- Exact (unbounded) value of the sum computed by `decode_number` at
src/src/data/mod.rs lines 177-180, before `i32` wrapping. -/
def decodeNumberExact (bytes : List Nat) : Int :=
  decodeDigit bytes 3 * THREE_MAX + decodeDigit bytes 2 * SHORT_MAX
    + decodeDigit bytes 1 * CHAR_MAX + decodeDigit bytes 0

/-- Source src/src/data/mod.rs lines 165-181, `decode_number`: the digit
sum evaluated in `i32`, hence wrapped to two's-complement range. -/
def decode_number (bytes : List Nat) : Int := wrap32 (decodeNumberExact bytes)

/-! ### String cipher (src/src/data/mod.rs lines 198-240) -/

/-- Source src/src/data/mod.rs lines 204-209 and 231-236: the per-byte
substitution of the string cipher.  `flip` is the value of the Rust
condition `i % 2 != parity`. -/
def cipherChar (flip : Bool) (c : Nat) : Nat :=
  if flip then
    if 34 ≤ c ∧ c ≤ 125 then 125 - c + 34 else c
  else
    if 34 ≤ c ∧ c ≤ 79 then 79 - c + 34
    else if 80 ≤ c ∧ c ≤ 125 then 125 - c + 80
    else c

/-- The indexed substitution loop shared by `encode_string` and
`decode_string`: applies `cipherChar` at each position, threading the
running index `i`. -/
def cipherMap (parity : Nat) : Nat → List Nat → List Nat
  | _, [] => []
  | i, c :: rest => cipherChar (decide (i % 2 ≠ parity)) c :: cipherMap parity (i + 1) rest

/-- Source src/src/data/mod.rs lines 198-211, `decode_string`: reverse the
buffer, then run the substitution with `parity = (len + 1) % 2` (the
length is unchanged by the reverse). -/
def decode_string (buf : List Nat) : List Nat :=
  cipherMap ((buf.length + 1) % 2) 0 buf.reverse

/-- Source src/src/data/mod.rs lines 227-240, `encode_string`: run the
substitution with `parity = (len + 1) % 2`, then reverse the buffer. -/
def encode_string (buf : List Nat) : List Nat :=
  (cipherMap ((buf.length + 1) % 2) 0 buf).reverse

/-! ### Stream reader (src/src/data/eo_reader.rs) -/

/-- Source src/src/data/eo_reader.rs lines 9-15: reader error kind. -/
inductive EoReaderError where
  | ChunkedReadingDisabled : EoReaderError
  | Other : String → EoReaderError
deriving DecidableEq, Repr

/-- Source src/src/data/eo_reader.rs lines 68-74: reader state.  The Rust
`Cell` fields are interior-mutable; here every operation returns the
updated state explicitly. -/
structure EoReader where
  data : List Nat
  position : Nat
  chunked_reading_mode : Bool
  chunk_start : Nat
  next_break : Option Nat
deriving DecidableEq, Repr

namespace EoReader

/-- Source src/src/data/eo_reader.rs lines 78-86, `EoReader::new`. -/
def new (data : List Nat) : EoReader :=
  { data := data, position := 0, chunked_reading_mode := false,
    chunk_start := 0, next_break := none }

/-- Source src/src/data/eo_reader.rs lines 148-154,
`find_next_break_index`: index of the first `0xFF` byte at or after the
current position, or the data length when there is none. -/
def find_next_break_index (r : EoReader) : Nat :=
  match (r.data.drop r.position).findIdx? (fun b => b = 255) with
  | some index => r.position + index
  | none => r.data.length

/-- Source src/src/data/eo_reader.rs lines 90-103, `remaining`. -/
def remaining (r : EoReader) : Nat :=
  if r.chunked_reading_mode then
    let nb := r.next_break.getD r.position
    nb - min r.position nb
  else
    r.data.length - r.position

/-- Source src/src/data/eo_reader.rs lines 115-121,
`set_chunked_reading_mode`: set the mode, and compute `next_break` if it
has never been computed. -/
def set_chunked_reading_mode (r : EoReader) (enabled : Bool) : EoReader :=
  let r1 := { r with chunked_reading_mode := enabled }
  match r1.next_break with
  | none => { r1 with next_break := some (find_next_break_index r1) }
  | some _ => r1

/-- Source src/src/data/eo_reader.rs lines 124-146, `next_chunk`. -/
def next_chunk (r : EoReader) : Except EoReaderError EoReader :=
  if !r.chunked_reading_mode then
    .error .ChunkedReadingDisabled
  else
    let nb := r.next_break.getD r.position
    let r1 := { r with chunk_start := nb }
    let pos := if nb < r.data.length then nb + 1 else nb
    let r2 := { r1 with position := pos }
    .ok { r2 with next_break := some (find_next_break_index r2) }

/-- Source src/src/data/eo_reader.rs lines 265-274, `read_bytes`: the
requested length is clamped to `remaining()`, the slice
`data[position..position + length]` is taken (returning `none` without
advancing when it is out of bounds), and the position advances by the
clamped length. -/
def read_bytes (r : EoReader) (length : Nat) : Option (List Nat) × EoReader :=
  let len := min length (remaining r)
  if r.position + len ≤ r.data.length then
    (some ((r.data.drop r.position).take len), { r with position := r.position + len })
  else
    (none, r)

/-- Source src/src/data/eo_reader.rs lines 179-184, `get_char`. -/
def get_char (r : EoReader) : Int × EoReader :=
  match read_bytes r 1 with
  | (some buf, r1) => (decode_number buf, r1)
  | (none, r1) => (0, r1)

/-- Source src/src/data/eo_reader.rs lines 189-194, `get_short`. -/
def get_short (r : EoReader) : Int × EoReader :=
  match read_bytes r 2 with
  | (some buf, r1) => (decode_number buf, r1)
  | (none, r1) => (0, r1)

/-- Source src/src/data/eo_reader.rs lines 199-204, `get_three`. -/
def get_three (r : EoReader) : Int × EoReader :=
  match read_bytes r 3 with
  | (some buf, r1) => (decode_number buf, r1)
  | (none, r1) => (0, r1)

/-- Source src/src/data/eo_reader.rs lines 209-214, `get_int`. -/
def get_int (r : EoReader) : Int × EoReader :=
  match read_bytes r 4 with
  | (some buf, r1) => (decode_number buf, r1)
  | (none, r1) => (0, r1)

end EoReader

/-- Windows-1252 text decoding of a byte buffer, as a Lean `String`.  On
every code point exercised by the claims (printable ASCII) Windows-1252
agrees with Unicode, so the decoding is the pointwise character map. -/
def windows1252ToString (bytes : List Nat) : String :=
  String.mk (bytes.map Char.ofNat)

namespace EoReader

/-- Source src/src/data/eo_reader.rs lines 226-238, `get_fixed_string`. -/
def get_fixed_string (r : EoReader) (length : Nat) : String × EoReader :=
  if length = 0 then ("", r)
  else
    match read_bytes r length with
    | (some buf, r1) => (windows1252ToString buf, r1)
    | (none, r1) => ("", r1)

/-- Source src/src/data/eo_reader.rs lines 217-220, `get_string`. -/
def get_string (r : EoReader) : String × EoReader :=
  get_fixed_string r (remaining r)

/-- Source src/src/data/eo_reader.rs lines 246-263,
`get_fixed_encoded_string`: read `length` bytes, cipher-decode them, keep
only the bytes strictly before the first `0xFF` (or all but the last byte
when there is no `0xFF`), and decode those as text. -/
def get_fixed_encoded_string (r : EoReader) (length : Nat) : String × EoReader :=
  if length = 0 then ("", r)
  else
    match read_bytes r length with
    | (some buf, r1) =>
        let decoded := decode_string buf
        let position_of_break :=
          match decoded.findIdx? (fun b => b = 255) with
          | some position_of_break => position_of_break
          | none => length - 1
        (windows1252ToString (decoded.take position_of_break), r1)
    | (none, r1) => ("", r1)

end EoReader

/-! ### Stream writer (src/src/data/eo_writer.rs) -/

/-- Source src/src/data/eo_writer.rs lines 7-19: writer error kind.  The
`InvalidIntValue` payload is an `i64` in the source. -/
inductive EoWriterError where
  | InvalidCharValue : Int → EoWriterError
  | InvalidShortValue : Int → EoWriterError
  | InvalidThreeValue : Int → EoWriterError
  | InvalidIntValue : Int → EoWriterError
  | Other : String → EoWriterError
deriving DecidableEq, Repr

/-- Source src/src/data/eo_writer.rs lines 48-51: writer state. -/
structure EoWriter where
  data : List Nat
  string_sanitization_mode : Bool
deriving DecidableEq, Repr

namespace EoWriter

/-- Source src/src/data/eo_writer.rs lines 55-57, `EoWriter::new`. -/
def new : EoWriter := { data := [], string_sanitization_mode := false }

end EoWriter

/-- Modelled from the spec: the fallible `encode_number` that
`EoWriter::add_int` (src/src/data/eo_writer.rs line 112) invokes with the
`?` operator.  That function is absent from src/ — the `encode_number` in
src/src/data/mod.rs returns a plain array, which `?` cannot apply to — so
it is reconstructed from spec section 4.4 / section 9 (the variant that
accepts the full encodable magnitude range and rejects only genuine
overflow) as pinned exactly by the writer unit tests in
src/src/data/eo_writer.rs lines 228-233 and 256-261 (`add_int(-1)` is
`Ok`, `add_int(-i32::MAX)` fails with `InvalidIntValue(2 * i32::MAX)`) and
by the `InvalidIntValue` message, which names the bound `INT_MAX`: a
negative value maps to twice its magnitude, and any mapped value above
`INT_MAX` is rejected. -/
def encode_number_checked (number : Int) : Except EoWriterError (List Nat) :=
  let value : Int := if number < 0 then 2 * (-number) else number
  if INT_MAX < value then .error (.InvalidIntValue value)
  else .ok (encode_number value)

namespace EoWriter

/-- Source src/src/data/eo_writer.rs lines 111-115, `add_int`: encode the
value with the fallible `encode_number` (propagating its error, in which
case nothing is appended) and append all four encoded bytes. -/
def add_int (w : EoWriter) (int : Int) : Except EoWriterError EoWriter :=
  match encode_number_checked int with
  | .error e => .error e
  | .ok encoded => .ok { w with data := w.data ++ encoded.take 4 }

end EoWriter

/-! ### Packet cipher (src/src/encrypt) -/

/-- Source src/src/encrypt/mod.rs lines 12-14, `valid_for_encryption`: the
buffer is longer than two bytes and its first two bytes are not both
`0xFF`. -/
def valid_for_encryption (buf : List Nat) : Bool :=
  decide (2 < buf.length) && !(decide (buf.take 2 = [255, 255]))

/-- The conditional high-bit flip applied to every copied byte in
src/src/encrypt/encrypt_packet.rs lines 60-62 and 66-68 (and the same in
decrypt_packet): `if b & 0x7f != 0 { b ^= 0x80 }`. -/
def flipMsb (b : Nat) : Nat :=
  if b &&& 127 = 0 then b else b ^^^ 128

/-- Source src/src/encrypt/swap_multiples.rs lines 16-33: one in-place
segment reversal, `bytes[start..start + len]` reversed inside the list. -/
def reverseSeg (start len : Nat) (l : List Nat) : List Nat :=
  l.take start ++ ((l.drop start).take len).reverse ++ l.drop (start + len)

/-- Source src/src/encrypt/swap_multiples.rs lines 19-32: the scanning
loop of `swap_multiples`, one constructor step per loop iteration.  `i` is
the loop index, `seqLen` the running `sequence_length`; the fuel argument
is `bytes.length + 1 - i`, so it never reaches zero before the loop ends. -/
def swapGo (m : Nat) : Nat → List Nat → Nat → Nat → List Nat
  | 0, bytes, _, _ => bytes
  | fuel + 1, bytes, i, seqLen =>
    if i = bytes.length then
      if 1 < seqLen then reverseSeg (i - seqLen) seqLen bytes else bytes
    else
      if bytes.getD i 0 % m = 0 then
        swapGo m fuel bytes (i + 1) (seqLen + 1)
      else
        let bytes1 := if 1 < seqLen then reverseSeg (i - seqLen) seqLen bytes else bytes
        swapGo m fuel bytes1 (i + 1) 0

/-- Source src/src/encrypt/swap_multiples.rs lines 16-33,
`swap_multiples`. -/
def swap_multiples (bytes : List Nat) (multiple : Nat) : List Nat :=
  swapGo multiple (bytes.length + 1) bytes 0 0

/-- The interleaving-plus-flip step of `encrypt_packet`
(src/src/encrypt/encrypt_packet.rs lines 54-69): the two loops write the
even destination positions from the front half in order and the odd
destination positions from the back of the buffer, flipping each copied
byte; destination index `j` therefore receives
`flipMsb (buf[j / 2])` when `j` is even and
`flipMsb (buf[len - 1 - (j - 1) / 2])` when `j` is odd. -/
def interleaveFlip (buf : List Nat) : List Nat :=
  (List.range buf.length).map fun j =>
    if j % 2 = 0 then flipMsb (buf.getD (j / 2) 0)
    else flipMsb (buf.getD (buf.length - 1 - (j - 1) / 2) 0)

/-- The un-interleaving-plus-flip step of `decrypt_packet`
(src/src/encrypt/decrypt_packet.rs lines 52-67): the two loops write
`tmp[i] = flip (buf[2 i])` for `i < (len + 1) / 2` and
`tmp[len - 1 - i] = flip (buf[2 i + 1])` for `i < len / 2`; destination
index `k` therefore receives `flipMsb (buf[2 k])` when `k < (len + 1) / 2`
and `flipMsb (buf[2 (len - 1 - k) + 1])` otherwise. -/
def deinterleaveFlip (buf : List Nat) : List Nat :=
  (List.range buf.length).map fun k =>
    if k < (buf.length + 1) / 2 then flipMsb (buf.getD (2 * k) 0)
    else flipMsb (buf.getD (2 * (buf.length - 1 - k) + 1) 0)

/-- Source src/src/encrypt/encrypt_packet.rs lines 47-71,
`encrypt_packet`: no-op unless `valid_for_encryption`; otherwise
swap-multiples then interleave with the high-bit flip. -/
def encrypt_packet (buf : List Nat) (swap_multiple : Nat) : List Nat :=
  if valid_for_encryption buf then interleaveFlip (swap_multiples buf swap_multiple)
  else buf

/-- Source src/src/encrypt/decrypt_packet.rs lines 47-70,
`decrypt_packet`: no-op unless `valid_for_encryption`; otherwise
un-interleave with the high-bit flip, then swap-multiples. -/
def decrypt_packet (buf : List Nat) (swap_multiple : Nat) : List Nat :=
  if valid_for_encryption buf then swap_multiples (deinterleaveFlip buf) swap_multiple
  else buf

/-! ### Sequencer free functions (src/src/packet/sequencer.rs) -/

/-- Source src/src/packet/sequencer.rs lines 56-63,
`get_init_sequence_bytes`.  The random draw
`rng.gen_range(0..=seq1_max - seq1_min)` is modelled by the extra
parameter `r`; `Int.div` is the truncating division of Rust `i32`. -/
def get_init_sequence_bytes (start r : Int) : Int × Int :=
  let seq1_min := max 0 (Int.tdiv (start - (CHAR_MAX - 1) + 13 + 6) 7)
  let seq1 := r + seq1_min
  let seq2 := start - seq1 * 7 + 13
  (seq1, seq2)

/-- Source src/src/packet/sequencer.rs lines 68-70,
`get_init_sequence_start`. -/
def get_init_sequence_start (s1 s2 : Int) : Int := s1 * 7 + s2 - 13

/-- Source src/src/packet/sequencer.rs lines 75-82,
`get_ping_sequence_bytes`.  The random draw
`rng.gen_range(seq1_min..=seq1_max)` (over `[start, start + 252]`) is
modelled as `start + r` with offset parameter `r`. -/
def get_ping_sequence_bytes (start r : Int) : Int × Int :=
  let seq1 := start + r
  let seq2 := seq1 - start
  (seq1, seq2)

/-- Source src/src/packet/sequencer.rs lines 87-88,
`get_ping_sequence_start`. -/
def get_ping_sequence_start (s1 s2 : Int) : Int := s1 - s2

/-- Statement of claim C7 in the claim's own words (not translated from
the source): split the buffer into maximal runs of consecutive bytes each
divisible by `m`; reverse every run of length at least two in place and
leave runs of length zero or one untouched. -/
def swapMultiplesSpec (m : Nat) : List Nat → List Nat
  | [] => []
  | b :: rest =>
    if b % m = 0 then
      (if 1 < (b :: rest.takeWhile (fun x => x % m = 0)).length then
          (b :: rest.takeWhile (fun x => x % m = 0)).reverse
        else b :: rest.takeWhile (fun x => x % m = 0))
        ++ swapMultiplesSpec m (rest.dropWhile (fun x => x % m = 0))
    else
      b :: swapMultiplesSpec m rest
termination_by l => l.length
decreasing_by
  · have h : ∀ l : List Nat, (l.dropWhile (fun x => decide (x % m = 0))).length ≤ l.length := by
      intro l
      induction l with
      | nil => simp
      | cons a l ih =>
        rw [List.dropWhile_cons]
        split
        · exact Nat.le_trans ih (Nat.le_succ _)
        · exact Nat.le_refl _
    simpa using Nat.lt_succ_of_le (h rest)
  · simp

example : swap_multiples [10, 21, 27] 3 = [10, 27, 21] := by decide
example : swapMultiplesSpec 3 [10, 21, 27] = [10, 27, 21] := by
  simp [swapMultiplesSpec, List.takeWhile, List.dropWhile]
example :
    encrypt_packet [21, 18, 145, 72, 101, 108, 108, 111, 44, 32, 119, 111, 114, 108, 100, 33] 6
      = [149, 161, 146, 228, 17, 242, 200, 236, 229, 239, 236, 247, 236, 160, 239, 172] := by
  decide
example :
    decrypt_packet [149, 161, 146, 228, 17, 242, 200, 236, 229, 239, 236, 247, 236, 160, 239, 172] 6
      = [21, 18, 145, 72, 101, 108, 108, 111, 44, 32, 119, 111, 114, 108, 100, 33] := by
  decide
example : decrypt_packet (encrypt_packet [127, 0, 127] 6) 6 = [255, 255, 0] := by decide

example : encode_number 42 = [43, 254, 254, 254] := by decide
example : encode_number 533 = [28, 3, 254, 254] := by decide
example : encode_number 888888 = [100, 225, 14, 254] := by decide
example : encode_number 18994242 = [15, 189, 44, 2] := by decide
example : decode_number [43, 254, 254, 254] = 42 := by decide
example : encode_string [86, 111, 105, 100] = [0x69, 0x36, 0x5E, 0x49] := by decide
example : decode_string [0x69, 0x36, 0x5E, 0x49] = [86, 111, 105, 100] := by decide

/-! ## Helper lemmas -/

/-- Numeric value of SHORT_MAX. -/
theorem SHORT_MAX_eq : SHORT_MAX = 64009 := by decide

/-- Numeric value of THREE_MAX. -/
theorem THREE_MAX_eq : THREE_MAX = 16194277 := by decide

/-- Dropping a prefix with `dropWhile` never lengthens a list. -/
theorem dropWhile_length_le (p : Nat → Bool) (l : List Nat) :
    (l.dropWhile p).length ≤ l.length := by
  induction l with
  | nil => simp
  | cons a l ih =>
    rw [List.dropWhile_cons]
    split
    · exact Nat.le_trans ih (Nat.le_succ _)
    · exact Nat.le_refl _

/-- The per-byte substitution of the string cipher is an involution. -/
theorem cipherChar_invol (f : Bool) (c : Nat) : cipherChar f (cipherChar f c) = c := by
  cases f <;> simp only [cipherChar] <;> split_ifs <;> omega

/-- The indexed substitution preserves the length. -/
theorem cipherMap_length (p i : Nat) (l : List Nat) :
    (cipherMap p i l).length = l.length := by
  induction l generalizing i with
  | nil => rfl
  | cons c rest ih => simp [cipherMap, ih]

/-- The indexed substitution is an involution at every starting index. -/
theorem cipherMap_invol (p i : Nat) (l : List Nat) :
    cipherMap p i (cipherMap p i l) = l := by
  induction l generalizing i with
  | nil => rfl
  | cons c rest ih => simp [cipherMap, cipherChar_invol, ih]

/-! ## Claim C6 — string cipher round trip -/

/-- Claim C6: decode_string after encode_string is the identity on every
byte buffer; in particular the bytes of "Void" encode to
[0x69, 0x36, 0x5E, 0x49] and decode back. -/
theorem claim_C6_string_cipher_roundtrip :
    (∀ buf : List Nat, decode_string (encode_string buf) = buf) ∧
    encode_string [86, 111, 105, 100] = [0x69, 0x36, 0x5E, 0x49] ∧
    decode_string [0x69, 0x36, 0x5E, 0x49] = [86, 111, 105, 100] := by
  refine ⟨fun buf => ?_, by decide, by decide⟩
  unfold decode_string encode_string
  rw [List.length_reverse, cipherMap_length, List.reverse_reverse, cipherMap_invol]

/-! ## Claim C8 — sequence-byte round trips -/

/-- Claim C8: for every start value and every random draw, the init
sequence bytes recover the start via get_init_sequence_start, and the ping
sequence bytes recover it via get_ping_sequence_start. -/
theorem claim_C8_sequence_roundtrips (start r : Int) :
    get_init_sequence_start (get_init_sequence_bytes start r).1
        (get_init_sequence_bytes start r).2 = start ∧
    get_ping_sequence_start (get_ping_sequence_bytes start r).1
        (get_ping_sequence_bytes start r).2 = start := by
  unfold get_init_sequence_start get_init_sequence_bytes
    get_ping_sequence_start get_ping_sequence_bytes
  constructor <;> ring

/-! ## Claim C5 — chunked reading scenario -/

/-- Claim C5: on [43, 255, 72, 101, 108, 108, 111, 255, 2] with chunked
reading enabled, get_int returns 42 advancing the position by exactly one
byte; after next_chunk, get_string returns "Hello"; after another
next_chunk, get_int returns 1. -/
theorem claim_C5_chunked_scenario :
    (EoReader.get_int (EoReader.set_chunked_reading_mode
        (EoReader.new [43, 255, 72, 101, 108, 108, 111, 255, 2]) true)).1 = 42 ∧
    (EoReader.get_int (EoReader.set_chunked_reading_mode
        (EoReader.new [43, 255, 72, 101, 108, 108, 111, 255, 2]) true)).2.position =
      (EoReader.set_chunked_reading_mode
        (EoReader.new [43, 255, 72, 101, 108, 108, 111, 255, 2]) true).position + 1 ∧
    ((EoReader.next_chunk (EoReader.get_int (EoReader.set_chunked_reading_mode
        (EoReader.new [43, 255, 72, 101, 108, 108, 111, 255, 2]) true)).2).toOption.map
      fun r3 =>
        ((EoReader.get_string r3).1,
          (EoReader.next_chunk (EoReader.get_string r3).2).toOption.map
            fun r5 => (EoReader.get_int r5).1)) =
      some ("Hello", some 1) := by
  decide

/-! ## Claim C2 — reader bounds behavior -/

/-- Claim C2 failing inputs evaluated: a get_int on an empty reader
requests 4 bytes with 0 remaining yet silently returns the value 0 (no
error is reported; the getter has no error channel), and a get_int on a
one-byte reader returns a value decoded from a single byte. -/
theorem claim_C2_get_int_silent_clamping :
    EoReader.remaining (EoReader.new []) = 0 ∧
    EoReader.get_int (EoReader.new []) = (0, EoReader.new []) ∧
    EoReader.remaining (EoReader.new [43]) = 1 ∧
    (EoReader.get_int (EoReader.new [43])).1 = 42 := by
  decide

/-! ## Claim C4 — writer int policy -/

/-- Claim C4 counterexample: add_int (-1) succeeds (as the unit test
add_negative_int in src/src/data/eo_writer.rs lines 228-233 asserts) and
appends the four-byte encoding of the mapped value 2, refuting the
reject-all-negatives policy. -/
theorem claim_C4_counterexample :
    (EoWriter.add_int EoWriter.new (-1)).toOption =
      some { data := [3, 254, 254, 254], string_sanitization_mode := false } := by
  decide

/-- Claim C4 amended: add_int maps a negative value to twice its
magnitude, rejects the result with InvalidIntValue exactly when it exceeds
INT_MAX (appending nothing), and otherwise appends the four-byte encoding
of the mapped value. -/
theorem claim_C4_add_int_policy (w : EoWriter) (v : Int) :
    (INT_MAX < (if v < 0 then 2 * (-v) else v) →
      EoWriter.add_int w v =
        Except.error (EoWriterError.InvalidIntValue (if v < 0 then 2 * (-v) else v))) ∧
    ((if v < 0 then 2 * (-v) else v) ≤ INT_MAX →
      EoWriter.add_int w v =
        Except.ok { w with
          data := w.data ++ encode_number (if v < 0 then 2 * (-v) else v) }) := by
  refine ⟨fun h => ?_, fun h => ?_⟩
  · dsimp only [EoWriter.add_int, encode_number_checked]
    rw [if_pos h]
  · dsimp only [EoWriter.add_int, encode_number_checked]
    rw [if_neg (not_lt.mpr h)]
    show Except.ok _ = _
    simp [encode_number]

/-- Witness for the amended claim C4 at v = 42 on a fresh writer. -/
theorem claim_C4_witness :
    EoWriter.add_int EoWriter.new 42 =
      Except.ok { EoWriter.new with
        data := EoWriter.new.data ++ encode_number (if (42 : Int) < 0 then 2 * (-42) else 42) } :=
  (claim_C4_add_int_policy EoWriter.new 42).2 (by decide)

/-! ## Claim C9 — decode_number overflow -/

/-- The digit produced by decode_number is zero when the byte at `i` is
254. -/
theorem decodeDigit_of_254 (bytes : List Nat) (i : Nat) (h : bytes.getD i 0 = 254) :
    decodeDigit bytes i = 0 := by
  simp only [decodeDigit]
  split_ifs <;> omega

/-- The digit produced by decode_number at an in-range position holding a
byte in [1, 253] is that byte minus one. -/
theorem decodeDigit_of_plain (bytes : List Nat) (i : Nat) (hlen : i < bytes.length)
    (h1 : 1 ≤ bytes.getD i 0) (h2 : bytes.getD i 0 ≤ 253) :
    decodeDigit bytes i = (bytes.getD i 0 : Int) - 1 := by
  simp only [decodeDigit]
  split_ifs <;> omega

/-- The digit produced by decode_number past the end of the input is
zero. -/
theorem decodeDigit_of_oob (bytes : List Nat) (i : Nat) (hlen : bytes.length ≤ i) :
    decodeDigit bytes i = 0 := by
  simp only [decodeDigit]
  split_ifs <;> omega

/-- Closed-form evaluation of a digit of decode_number: in-range nonzero
bytes other than 254 decode to the byte minus one, everything else to
zero. -/
theorem decodeDigit_eval (bytes : List Nat) (i : Nat) :
    decodeDigit bytes i =
      if i < bytes.length ∧ bytes.getD i 0 ≠ 0 ∧ bytes.getD i 0 ≠ 254 then
        (bytes.getD i 0 : Int) - 1
      else 0 := by
  simp only [decodeDigit]
  split_ifs <;> omega

/-- Every digit of decode_number over a buffer of genuine bytes lies in
[0, 254]. -/
theorem decodeDigit_bounds (bytes : List Nat) (h : ∀ b ∈ bytes, b < 256) (i : Nat) :
    0 ≤ decodeDigit bytes i ∧ decodeDigit bytes i ≤ 254 := by
  have hb : bytes.getD i 0 < 256 ∨ bytes.length ≤ i := by
    rcases Nat.lt_or_ge i bytes.length with hi | hi
    · left
      rw [List.getD_eq_getElem bytes 0 hi]
      exact h _ (List.getElem_mem hi)
    · right
      exact hi
  simp only [decodeDigit]
  split_ifs <;> omega

/-- Claim C9: the input [254, 254, 254, 255] lies outside the image of
encode_number, its exact digit sum is 254 * THREE_MAX = 4113346358, which
exceeds INT_MAX, so the i32 computation in decode_number overflows (the
wrapped result is negative); and on byte inputs decode_number agrees with
the exact digit sum precisely when that sum is at most INT_MAX. -/
theorem claim_C9_decode_number_overflow :
    decodeNumberExact [254, 254, 254, 255] = 254 * THREE_MAX ∧
    decodeNumberExact [254, 254, 254, 255] = 4113346358 ∧
    INT_MAX < decodeNumberExact [254, 254, 254, 255] ∧
    decode_number [254, 254, 254, 255] = -181620938 ∧
    ∀ bytes : List Nat, (∀ b ∈ bytes, b < 256) →
      (decode_number bytes = decodeNumberExact bytes ↔
        decodeNumberExact bytes ≤ INT_MAX) := by
  refine ⟨by decide, by decide, by decide, by decide, fun bytes h => ?_⟩
  have h3 := decodeDigit_bounds bytes h 3
  have h2 := decodeDigit_bounds bytes h 2
  have h1 := decodeDigit_bounds bytes h 1
  have h0 := decodeDigit_bounds bytes h 0
  have hE : 0 ≤ decodeNumberExact bytes ∧ decodeNumberExact bytes < 4294967296 := by
    simp only [decodeNumberExact, SHORT_MAX_eq, THREE_MAX_eq, CHAR_MAX]
    constructor <;> omega
  show wrap32 (decodeNumberExact bytes) = decodeNumberExact bytes ↔
    decodeNumberExact bytes ≤ INT_MAX
  simp only [wrap32, INT_MAX]
  omega

/-- Witness for claim C9 at the concrete input [43]: its exact sum 42 is
within i32 range, so decode_number returns it exactly. -/
theorem claim_C9_witness :
    decode_number [43] = decodeNumberExact [43] :=
  (claim_C9_decode_number_overflow.2.2.2.2 [43] (by decide)).mpr (by decide)

/-! ## Claim C1 — numeric codec round trip -/

/-- Shape of encode_number for values below CHAR_MAX. -/
theorem encode_number_lt_char (v : Int) (h0 : 0 ≤ v) (h1 : v < 253) :
    encode_number v = [v.toNat + 1, 254, 254, 254] := by
  simp only [encode_number, CHAR_MAX, SHORT_MAX_eq, THREE_MAX_eq]
  split_ifs <;> simp only [List.cons.injEq, and_true] <;> omega

/-- Shape of encode_number for values in [CHAR_MAX, SHORT_MAX). -/
theorem encode_number_lt_short (v : Int) (h0 : 253 ≤ v) (h1 : v < 64009) :
    encode_number v = [(v % 253).toNat + 1, (v / 253).toNat + 1, 254, 254] := by
  simp only [encode_number, CHAR_MAX, SHORT_MAX_eq, THREE_MAX_eq]
  split_ifs <;> simp only [List.cons.injEq, and_true] <;> omega

/-- Shape of encode_number for values in [SHORT_MAX, THREE_MAX). -/
theorem encode_number_lt_three (v : Int) (h0 : 64009 ≤ v) (h1 : v < 16194277) :
    encode_number v =
      [(v % 64009 % 253).toNat + 1, (v % 64009 / 253).toNat + 1,
        (v / 64009).toNat + 1, 254] := by
  simp only [encode_number, CHAR_MAX, SHORT_MAX_eq, THREE_MAX_eq]
  split_ifs <;> simp only [List.cons.injEq, and_true] <;> omega

/-- Shape of encode_number for values in [THREE_MAX, INT_MAX]. -/
theorem encode_number_big (v : Int) (h0 : 16194277 ≤ v) (h1 : v ≤ 2147483647) :
    encode_number v =
      [(v % 16194277 % 64009 % 253).toNat + 1, (v % 16194277 % 64009 / 253).toNat + 1,
        (v % 16194277 / 64009).toNat + 1, (v / 16194277).toNat + 1] := by
  simp only [encode_number, CHAR_MAX, SHORT_MAX_eq, THREE_MAX_eq]
  split_ifs <;> simp only [List.cons.injEq, and_true] <;> omega

/-- Claim C1 counterexample: at the inclusive right endpoint v = CHAR_MAX
= 253 the narrow one-byte round trip fails: the leading byte of
encode_number 253 is 1, and decoding it yields 0, not 253. -/
theorem claim_C1_counterexample :
    encode_number 253 = [1, 2, 254, 254] ∧
    decode_number ((encode_number 253).take 1) = 0 ∧
    decode_number ((encode_number 253).take 1) ≠ 253 := by
  decide

set_option maxHeartbeats 2000000 in
/-- Claim C1 amended: the four-byte round trip decode(encode v) = v holds
for every v in [0, INT_MAX]; the narrow round trips through the leading
1, 2, or 3 bytes hold for v strictly below CHAR_MAX, SHORT_MAX and
THREE_MAX respectively (the inclusive endpoints fail, see the
counterexample). -/
theorem claim_C1_numeric_codec_roundtrip (v : Int) (h0 : 0 ≤ v) (h1 : v ≤ INT_MAX) :
    decode_number (encode_number v) = v ∧
    (v < CHAR_MAX → decode_number ((encode_number v).take 1) = v) ∧
    (v < SHORT_MAX → decode_number ((encode_number v).take 2) = v) ∧
    (v < THREE_MAX → decode_number ((encode_number v).take 3) = v) := by
  simp only [INT_MAX] at h1
  have tv : (v.toNat : Int) = v := by omega
  have t0a : ((v % 253).toNat : Int) = v % 253 := by omega
  have t0b : ((v / 253).toNat : Int) = v / 253 := by omega
  have t1a : ((v % 64009 % 253).toNat : Int) = v % 64009 % 253 := by omega
  have t1b : ((v % 64009 / 253).toNat : Int) = v % 64009 / 253 := by omega
  have t1c : ((v / 64009).toNat : Int) = v / 64009 := by omega
  have t2a : ((v % 16194277 % 64009 % 253).toNat : Int) = v % 16194277 % 64009 % 253 := by omega
  have t2b : ((v % 16194277 % 64009 / 253).toNat : Int) = v % 16194277 % 64009 / 253 := by omega
  have t2c : ((v % 16194277 / 64009).toNat : Int) = v % 16194277 / 64009 := by omega
  have t2d : ((v / 16194277).toNat : Int) = v / 16194277 := by omega
  refine ⟨?_, fun hc => ?_, fun hs => ?_, fun ht => ?_⟩
  · rcases lt_or_le v 253 with hcase | hcase
    · rw [encode_number_lt_char v h0 hcase]
      simp only [decode_number, decodeNumberExact, decodeDigit_eval,
        List.getD_cons_zero, List.getD_cons_succ, List.getD_nil,
        List.length_cons, List.length_nil, wrap32, SHORT_MAX_eq, THREE_MAX_eq, CHAR_MAX]
      split_ifs <;> omega
    · rcases lt_or_le v 64009 with hcase2 | hcase2
      · rw [encode_number_lt_short v hcase hcase2]
        simp only [decode_number, decodeNumberExact, decodeDigit_eval,
          List.getD_cons_zero, List.getD_cons_succ, List.getD_nil,
          List.length_cons, List.length_nil, wrap32, SHORT_MAX_eq, THREE_MAX_eq, CHAR_MAX]
        split_ifs <;> omega
      · rcases lt_or_le v 16194277 with hcase3 | hcase3
        · rw [encode_number_lt_three v hcase2 hcase3]
          simp only [decode_number, decodeNumberExact, decodeDigit_eval,
            List.getD_cons_zero, List.getD_cons_succ, List.getD_nil,
            List.length_cons, List.length_nil, wrap32, SHORT_MAX_eq, THREE_MAX_eq, CHAR_MAX]
          split_ifs <;> omega
        · rw [encode_number_big v hcase3 h1]
          simp only [decode_number, decodeNumberExact, decodeDigit_eval,
            List.getD_cons_zero, List.getD_cons_succ, List.getD_nil,
            List.length_cons, List.length_nil, wrap32, SHORT_MAX_eq, THREE_MAX_eq, CHAR_MAX]
          split_ifs <;> omega
  · simp only [CHAR_MAX] at hc
    rw [encode_number_lt_char v h0 hc]
    simp only [List.take_succ_cons, List.take_zero, decode_number, decodeNumberExact,
      decodeDigit_eval, List.getD_cons_zero, List.getD_cons_succ, List.getD_nil,
      List.length_cons, List.length_nil, wrap32, SHORT_MAX_eq, THREE_MAX_eq, CHAR_MAX]
    split_ifs <;> omega
  · simp only [SHORT_MAX_eq] at hs
    rcases lt_or_le v 253 with hcase | hcase
    · rw [encode_number_lt_char v h0 hcase]
      simp only [List.take_succ_cons, List.take_zero, decode_number, decodeNumberExact,
        decodeDigit_eval, List.getD_cons_zero, List.getD_cons_succ, List.getD_nil,
        List.length_cons, List.length_nil, wrap32, SHORT_MAX_eq, THREE_MAX_eq, CHAR_MAX]
      split_ifs <;> omega
    · rw [encode_number_lt_short v hcase hs]
      simp only [List.take_succ_cons, List.take_zero, decode_number, decodeNumberExact,
        decodeDigit_eval, List.getD_cons_zero, List.getD_cons_succ, List.getD_nil,
        List.length_cons, List.length_nil, wrap32, SHORT_MAX_eq, THREE_MAX_eq, CHAR_MAX]
      split_ifs <;> omega
  · simp only [THREE_MAX_eq] at ht
    rcases lt_or_le v 253 with hcase | hcase
    · rw [encode_number_lt_char v h0 hcase]
      simp only [List.take_succ_cons, List.take_zero, decode_number, decodeNumberExact,
        decodeDigit_eval, List.getD_cons_zero, List.getD_cons_succ, List.getD_nil,
        List.length_cons, List.length_nil, wrap32, SHORT_MAX_eq, THREE_MAX_eq, CHAR_MAX]
      split_ifs <;> omega
    · rcases lt_or_le v 64009 with hcase2 | hcase2
      · rw [encode_number_lt_short v hcase hcase2]
        simp only [List.take_succ_cons, List.take_zero, decode_number, decodeNumberExact,
          decodeDigit_eval, List.getD_cons_zero, List.getD_cons_succ, List.getD_nil,
          List.length_cons, List.length_nil, wrap32, SHORT_MAX_eq, THREE_MAX_eq, CHAR_MAX]
        split_ifs <;> omega
      · rw [encode_number_lt_three v hcase2 ht]
        simp only [List.take_succ_cons, List.take_zero, decode_number, decodeNumberExact,
          decodeDigit_eval, List.getD_cons_zero, List.getD_cons_succ, List.getD_nil,
          List.length_cons, List.length_nil, wrap32, SHORT_MAX_eq, THREE_MAX_eq, CHAR_MAX]
        split_ifs <;> omega

/-- Witness for claim C1 at v = 42. -/
theorem claim_C1_witness :
    decode_number (encode_number 42) = 42 ∧
    decode_number ((encode_number 42).take 1) = 42 :=
  ⟨(claim_C1_numeric_codec_roundtrip 42 (by decide) (by decide)).1,
    (claim_C1_numeric_codec_roundtrip 42 (by decide) (by decide)).2.1 (by decide)⟩

/-! ## Claim C10 — get_fixed_encoded_string -/

/-- Claim C10: with n at least 1 and n bytes readable,
get_fixed_encoded_string n advances the position by n, cipher-decodes the
n consumed bytes, and returns the text of the decoded bytes strictly
before the first 0xFF; when the decoded buffer holds no 0xFF at all the
final decoded byte is discarded, so the result has at most n - 1
characters. -/
theorem claim_C10_fixed_encoded_string (r : EoReader) (n : Nat)
    (h1 : 1 ≤ n) (h2 : n ≤ EoReader.remaining r) (h3 : r.position + n ≤ r.data.length) :
    (EoReader.get_fixed_encoded_string r n).2.position = r.position + n ∧
    (EoReader.get_fixed_encoded_string r n).1 =
      windows1252ToString
        ((decode_string ((r.data.drop r.position).take n)).take
          (match (decode_string ((r.data.drop r.position).take n)).findIdx?
              (fun b => b = 255) with
            | some p => p
            | none => n - 1)) ∧
    ((decode_string ((r.data.drop r.position).take n)).findIdx? (fun b => b = 255) = none →
      (EoReader.get_fixed_encoded_string r n).1.length ≤ n - 1) := by
  have hmin : min n (EoReader.remaining r) = n := Nat.min_eq_left h2
  simp only [EoReader.get_fixed_encoded_string, EoReader.read_bytes, hmin,
    if_neg (show ¬n = 0 by omega), if_pos h3]
  refine ⟨trivial, trivial, fun hnone => ?_⟩
  rw [hnone]
  show (windows1252ToString ((decode_string _).take (n - 1))).length ≤ n - 1
  simp only [windows1252ToString, String.length, List.length_map, List.length_take]
  omega

/-- Witness for claim C10 on the two-byte reader [72, 255] with n = 2. -/
theorem claim_C10_witness :
    (EoReader.get_fixed_encoded_string (EoReader.new [72, 255]) 2).2.position = 0 + 2 :=
  (claim_C10_fixed_encoded_string (EoReader.new [72, 255]) 2
    (by decide) (by decide) (by decide)).1

/-! ## Swap-multiples: loop versus run decomposition -/

/-- Reversing the middle block of a three-block concatenation. -/
theorem reverseSeg_append (done run rest : List Nat) :
    reverseSeg done.length run.length (done ++ (run ++ rest)) =
      done ++ (run.reverse ++ rest) := by
  unfold reverseSeg
  rw [List.take_left]
  rw [show done.length + run.length = (done ++ run).length by simp]
  rw [show done ++ (run ++ rest) = (done ++ run) ++ rest by simp]
  rw [List.drop_left]
  rw [show ((done ++ run) ++ rest).drop done.length
        = ((done ++ run).drop done.length) ++ rest from List.drop_append_of_le_length (by simp)]
  rw [show (done ++ run).drop done.length = run from List.drop_left done run]
  rw [List.take_left]
  simp

/-- The element sitting at the junction of a concatenation. -/
theorem getD_append_length (l₁ : List Nat) (x : Nat) (l₂ : List Nat) :
    (l₁ ++ x :: l₂).getD l₁.length 0 = x := by
  induction l₁ with
  | nil => rfl
  | cons a l ih => simpa using ih

/-- takeWhile over a concatenation whose first block satisfies the
predicate throughout. -/
theorem takeWhile_append_of_all (p : Nat → Bool) (l₁ l₂ : List Nat)
    (h : ∀ x ∈ l₁, p x) :
    (l₁ ++ l₂).takeWhile p = l₁ ++ l₂.takeWhile p := by
  induction l₁ with
  | nil => rfl
  | cons a l ih =>
    rw [List.cons_append, List.takeWhile_cons, if_pos (h a (by simp))]
    rw [ih (fun x hx => h x (by simp [hx]))]
    rfl

/-- dropWhile over a concatenation whose first block satisfies the
predicate throughout. -/
theorem dropWhile_append_of_all (p : Nat → Bool) (l₁ l₂ : List Nat)
    (h : ∀ x ∈ l₁, p x) :
    (l₁ ++ l₂).dropWhile p = l₂.dropWhile p := by
  induction l₁ with
  | nil => rfl
  | cons a l ih =>
    rw [List.cons_append, List.dropWhile_cons, if_pos (h a (by simp))]
    exact ih (fun x hx => h x (by simp [hx]))

/-- Unfolding of the run decomposition at a nonempty all-divisible leading
run. -/
theorem swapMultiplesSpec_run (m : Nat) (run rest : List Nat) (hne : run ≠ [])
    (hall : ∀ x ∈ run, x % m = 0) :
    swapMultiplesSpec m (run ++ rest) =
      (if 1 < (run ++ rest.takeWhile (fun x => x % m = 0)).length
        then (run ++ rest.takeWhile (fun x => x % m = 0)).reverse
        else run ++ rest.takeWhile (fun x => x % m = 0))
      ++ swapMultiplesSpec m (rest.dropWhile (fun x => x % m = 0)) := by
  obtain ⟨b, t, rfl⟩ := List.exists_cons_of_ne_nil hne
  rw [List.cons_append, swapMultiplesSpec]
  rw [if_pos (by simpa using hall b (by simp))]
  rw [takeWhile_append_of_all _ t rest (fun x hx => by simpa using hall x (by simp [hx]))]
  rw [dropWhile_append_of_all _ t rest (fun x hx => by simpa using hall x (by simp [hx]))]
  simp [List.cons_append]

/-- The run decomposition of an all-divisible buffer just reverses it when
it is longer than one byte. -/
theorem swapMultiplesSpec_of_all (m : Nat) (run : List Nat)
    (hall : ∀ x ∈ run, x % m = 0) :
    swapMultiplesSpec m run = if 1 < run.length then run.reverse else run := by
  rcases List.eq_nil_or_concat run with rfl | _
  · simp [swapMultiplesSpec]
  · have hne : run ≠ [] := by rintro rfl; simp_all
    have := swapMultiplesSpec_run m run [] hne hall
    simpa [swapMultiplesSpec] using this

/-- The scanning loop of swap_multiples computes the run decomposition:
`done` is the already-processed prefix, `run` the pending all-divisible
run. -/
theorem swapGo_spec (m : Nat) :
    ∀ (rest done run : List Nat), (∀ x ∈ run, x % m = 0) →
      swapGo m (rest.length + 1) (done ++ (run ++ rest)) (done.length + run.length)
          run.length
        = done ++ swapMultiplesSpec m (run ++ rest) := by
  intro rest
  induction rest with
  | nil =>
    intro done run hall
    rw [swapGo]
    rw [if_pos (by simp)]
    rw [swapMultiplesSpec_of_all m (run ++ []) (by simpa using hall)]
    by_cases h : 1 < run.length
    · rw [if_pos (by simpa using h), if_pos (by simpa using h)]
      rw [show done.length + run.length - run.length = done.length by omega]
      rw [reverseSeg_append]
      simp
    · rw [if_neg (by simpa using h), if_neg (by simpa using h)]
  | cons c rest2 ih =>
    intro done run hall
    rw [swapGo]
    rw [if_neg (show ¬(done.length + run.length = (done ++ (run ++ c :: rest2)).length) by
      simp only [List.length_append, List.length_cons]
      omega)]
    have hgd : (done ++ (run ++ c :: rest2)).getD (done.length + run.length) 0 = c := by
      rw [show done ++ (run ++ c :: rest2) = (done ++ run) ++ c :: rest2 by simp]
      rw [show done.length + run.length = (done ++ run).length by simp]
      exact getD_append_length _ c _
    rw [hgd]
    by_cases hc : c % m = 0
    · rw [if_pos hc]
      have hall2 : ∀ x ∈ run ++ [c], x % m = 0 := by
        intro x hx
        rcases List.mem_append.mp hx with h | h
        · exact hall x h
        · simp at h
          subst h
          exact hc
      have := ih done (run ++ [c]) hall2
      rw [show (run ++ [c]) ++ rest2 = run ++ c :: rest2 by simp] at this
      rw [show done.length + (run ++ [c]).length = done.length + run.length + 1 by
        simp only [List.length_append, List.length_cons, List.length_nil]
        omega] at this
      rw [show (run ++ [c]).length = run.length + 1 by
        simp only [List.length_append, List.length_cons, List.length_nil]] at this
      exact this
    · rw [if_neg hc]
      have hrev : (if 1 < run.length
            then reverseSeg (done.length + run.length - run.length) run.length
              (done ++ (run ++ c :: rest2))
            else done ++ (run ++ c :: rest2))
          = done ++ ((if 1 < run.length then run.reverse else run) ++ c :: rest2) := by
        by_cases h : 1 < run.length
        · rw [if_pos h, if_pos h]
          rw [show done.length + run.length - run.length = done.length by omega]
          exact reverseSeg_append done run (c :: rest2)
        · rw [if_neg h, if_neg h]
      rw [hrev]
      have hrunlen : (if 1 < run.length then run.reverse else run).length = run.length := by
        by_cases h : 1 < run.length <;> simp [h]
      have := ih (done ++ ((if 1 < run.length then run.reverse else run) ++ [c])) [] (by simp)
      rw [show (done ++ ((if 1 < run.length then run.reverse else run) ++ [c])) ++ ([] ++ rest2)
            = done ++ ((if 1 < run.length then run.reverse else run) ++ c :: rest2) by simp] at this
      rw [show (done ++ ((if 1 < run.length then run.reverse else run) ++ [c])).length + [].length
            = done.length + run.length + 1 by
        simp only [List.length_append, List.length_cons, List.length_nil, hrunlen]
        omega] at this
      rw [show ([] : List Nat).length = 0 by rfl] at this
      show swapGo m (rest2.length + 1)
          (done ++ ((if 1 < run.length then run.reverse else run) ++ c :: rest2))
          (done.length + run.length + 1) 0
        = done ++ swapMultiplesSpec m (run ++ c :: rest2)
      rw [this]
      rcases List.eq_nil_or_concat run with rfl | hne2
      · simp only [List.length_nil, Nat.lt_irrefl, if_neg (by omega : ¬ (1:Nat) < 0)]
        rw [show ([] : List Nat) ++ c :: rest2 = c :: rest2 by rfl]
        rw [swapMultiplesSpec, if_neg hc]
        simp [swapMultiplesSpec]
      · have hne : run ≠ [] := by rintro rfl; simp_all
        rw [swapMultiplesSpec_run m run (c :: rest2) hne hall]
        have hcd : decide (c % m = 0) = false := by simpa using hc
        rw [List.takeWhile_cons, List.dropWhile_cons, hcd]
        simp only [Bool.false_eq_true, if_false]
        rw [swapMultiplesSpec, if_neg hc]
        simp

/-- The loop implementation of swap_multiples agrees with the run
decomposition on every buffer and every multiple. -/
theorem swap_multiples_eq_spec (bytes : List Nat) (m : Nat) :
    swap_multiples bytes m = swapMultiplesSpec m bytes := by
  have := swapGo_spec m bytes [] [] (by simp)
  simpa [swap_multiples] using this

/-- The head of what dropWhile leaves fails the predicate. -/
theorem dropWhile_head_not (p : Nat → Bool) (l : List Nat) (c : Nat) (cs : List Nat)
    (h : l.dropWhile p = c :: cs) : p c = false := by
  induction l with
  | nil => simp at h
  | cons a t ih =>
    rw [List.dropWhile_cons] at h
    by_cases hpa : p a = true
    · rw [if_pos hpa] at h
      exact ih h
    · rw [if_neg hpa] at h
      injection h with h1 h2
      subst h1
      simpa using hpa

/-- The run decomposition of a buffer that starts after a dropWhile step
begins with a byte that is not divisible, so a further
takeWhile/dropWhile pass over it is trivial. -/
theorem swapMultiplesSpec_dropWhile_head (m : Nat) (rest : List Nat) :
    (swapMultiplesSpec m (rest.dropWhile (fun x => x % m = 0))).takeWhile
        (fun x => x % m = 0) = [] ∧
    (swapMultiplesSpec m (rest.dropWhile (fun x => x % m = 0))).dropWhile
        (fun x => x % m = 0)
      = swapMultiplesSpec m (rest.dropWhile (fun x => x % m = 0)) := by
  cases hdw : rest.dropWhile (fun x => x % m = 0) with
  | nil => simp [swapMultiplesSpec]
  | cons c cs =>
    have hcb : (fun x => decide (x % m = 0)) c = false :=
      dropWhile_head_not _ rest c cs hdw
    have hc : ¬(c % m = 0) := by simpa using hcb
    rw [swapMultiplesSpec, if_neg hc]
    constructor
    · rw [List.takeWhile_cons]
      simp [hc]
    · rw [List.dropWhile_cons]
      simp [hc]

/-- Collapsing two conditional reversals of the same run. -/
theorem reverse_if_collapse (run : List Nat) :
    (if 1 < (if 1 < run.length then run.reverse else run).length
      then (if 1 < run.length then run.reverse else run).reverse
      else if 1 < run.length then run.reverse else run) = run := by
  by_cases h : 1 < run.length
  · simp [h]
  · simp [h]

/-- The run decomposition is an involution: reversing every maximal
divisible run twice restores the buffer. -/
theorem swapMultiplesSpec_invol (m : Nat) (l : List Nat) :
    swapMultiplesSpec m (swapMultiplesSpec m l) = l := by
  refine swapMultiplesSpec.induct m
    (fun l => swapMultiplesSpec m (swapMultiplesSpec m l) = l) ?_ ?_ ?_ l
  · simp [swapMultiplesSpec]
  · intro b rest hb ih
    rw [swapMultiplesSpec, if_pos hb]
    have halltw : ∀ x ∈ b :: rest.takeWhile (fun x => x % m = 0), x % m = 0 := by
      intro x hx
      rcases List.mem_cons.mp hx with rfl | hx2
      · exact hb
      · simpa using List.mem_takeWhile_imp hx2
    have hallrun : ∀ x ∈ (if 1 < (b :: rest.takeWhile (fun x => x % m = 0)).length
        then (b :: rest.takeWhile (fun x => x % m = 0)).reverse
        else b :: rest.takeWhile (fun x => x % m = 0)), x % m = 0 := by
      intro x hx
      by_cases h : 1 < (b :: rest.takeWhile (fun x => x % m = 0)).length
      · rw [if_pos h] at hx
        exact halltw x (List.mem_reverse.mp hx)
      · rw [if_neg h] at hx
        exact halltw x hx
    have hne : (if 1 < (b :: rest.takeWhile (fun x => x % m = 0)).length
        then (b :: rest.takeWhile (fun x => x % m = 0)).reverse
        else b :: rest.takeWhile (fun x => x % m = 0)) ≠ [] := by
      by_cases h : 1 < (b :: rest.takeWhile (fun x => x % m = 0)).length
      · rw [if_pos h]
        rw [ne_eq, List.reverse_eq_nil_iff]
        simp
      · rw [if_neg h]
        simp
    rw [swapMultiplesSpec_run m _ _ hne hallrun]
    rw [(swapMultiplesSpec_dropWhile_head m rest).1,
      (swapMultiplesSpec_dropWhile_head m rest).2]
    rw [List.append_nil, reverse_if_collapse, ih]
    rw [List.cons_append, List.takeWhile_append_dropWhile]
  · intro b rest hb ih
    rw [swapMultiplesSpec, if_neg hb]
    rw [swapMultiplesSpec, if_neg hb]
    rw [ih]

/-! ## Claim C7 — swap_multiples behavior -/

/-- Claim C7: for every buffer and nonzero multiple, the scanning loop of
swap_multiples computes exactly the run decomposition of the claim
(reverse each maximal run of length at least 2 of consecutive bytes
divisible by the multiple, leave all other bytes in place), and the
concrete example [10, 21, 27] with multiple 3 maps to [10, 27, 21]. -/
theorem claim_C7_swap_multiples :
    (∀ (bytes : List Nat) (m : Nat), m ≠ 0 →
      swap_multiples bytes m = swapMultiplesSpec m bytes) ∧
    swap_multiples [10, 21, 27] 3 = [10, 27, 21] :=
  ⟨fun bytes m _ => swap_multiples_eq_spec bytes m, by decide⟩

/-- Witness for claim C7 at the concrete buffer [10, 21, 27] with
multiple 3. -/
theorem claim_C7_witness :
    swap_multiples [10, 21, 27] 3 = swapMultiplesSpec 3 [10, 21, 27] :=
  claim_C7_swap_multiples.1 [10, 21, 27] 3 (by decide)

/-! ## Packet cipher round trip (claim C3) -/

/-- The conditional high-bit flip is an involution on every value. -/
theorem flipMsb_invol (b : Nat) : flipMsb (flipMsb b) = b := by
  unfold flipMsb
  by_cases h : b &&& 127 = 0
  · rw [if_pos h, if_pos h]
  · rw [if_neg h]
    have hand : (b ^^^ 128) &&& 127 = b &&& 127 := by
      rw [Nat.and_xor_distrib_right]
      rw [show (128 : Nat) &&& 127 = 0 by decide]
      rw [Nat.xor_zero]
    rw [if_neg (by rw [hand]; exact h)]
    rw [Nat.xor_assoc, Nat.xor_self, Nat.xor_zero]

/-- The interleaving step preserves the buffer length. -/
theorem interleaveFlip_length (l : List Nat) :
    (interleaveFlip l).length = l.length := by
  simp [interleaveFlip]

/-- The entry of the interleaved buffer at an even index. -/
theorem interleaveFlip_getD_even (l : List Nat) (k : Nat) (h : 2 * k < l.length) :
    (interleaveFlip l).getD (2 * k) 0 = flipMsb (l.getD k 0) := by
  rw [List.getD_eq_getElem _ _ (by simpa [interleaveFlip_length] using h)]
  simp only [interleaveFlip, List.getElem_map, List.getElem_range]
  rw [if_pos (by omega)]
  rw [show 2 * k / 2 = k by omega]

/-- The entry of the interleaved buffer at an odd index. -/
theorem interleaveFlip_getD_odd (l : List Nat) (j : Nat) (h : 2 * j + 1 < l.length) :
    (interleaveFlip l).getD (2 * j + 1) 0 = flipMsb (l.getD (l.length - 1 - j) 0) := by
  rw [List.getD_eq_getElem _ _ (by simpa [interleaveFlip_length] using h)]
  simp only [interleaveFlip, List.getElem_map, List.getElem_range]
  rw [if_neg (by omega)]
  rw [show (2 * j + 1 - 1) / 2 = j by omega]

/-- Un-interleaving inverts interleaving, the flips cancelling pointwise. -/
theorem deinterleaveFlip_interleaveFlip (l : List Nat) :
    deinterleaveFlip (interleaveFlip l) = l := by
  apply List.ext_getElem
  · simp [deinterleaveFlip, interleaveFlip]
  · intro k h1 h2
    have hlen : (interleaveFlip l).length = l.length := interleaveFlip_length l
    simp only [deinterleaveFlip, List.getElem_map, List.getElem_range, hlen]
    by_cases hk : k < (l.length + 1) / 2
    · rw [if_pos hk]
      rw [interleaveFlip_getD_even l k (by omega)]
      rw [flipMsb_invol]
      exact List.getD_eq_getElem l 0 h2
    · rw [if_neg hk]
      rw [interleaveFlip_getD_odd l (l.length - 1 - k) (by omega)]
      rw [show l.length - 1 - (l.length - 1 - k) = k by omega]
      rw [flipMsb_invol]
      exact List.getD_eq_getElem l 0 h2

/-- Claim C3 counterexample: the buffer [127, 0, 127] satisfies the
encryption guard (length 3, not starting with two 0xFF bytes), but its
encryption with multiple 6 is [255, 255, 0], which decrypt_packet refuses
to touch, so the round trip does not restore the original buffer. -/
theorem claim_C3_counterexample :
    valid_for_encryption [127, 0, 127] = true ∧
    encrypt_packet [127, 0, 127] 6 = [255, 255, 0] ∧
    decrypt_packet (encrypt_packet [127, 0, 127] 6) 6 = [255, 255, 0] ∧
    decrypt_packet (encrypt_packet [127, 0, 127] 6) 6 ≠ [127, 0, 127] := by
  decide

/-- Claim C3 amended: for every buffer passing the encryption guard whose
encryption also passes the guard (it does not begin with two 0xFF bytes),
and every swap multiple in [6, 12], decrypting the encryption restores the
buffer exactly. -/
theorem claim_C3_packet_cipher_roundtrip (buf : List Nat) (m : Nat)
    (h6 : 6 ≤ m) (h12 : m ≤ 12)
    (hv : valid_for_encryption buf = true)
    (hv2 : valid_for_encryption (encrypt_packet buf m) = true) :
    decrypt_packet (encrypt_packet buf m) m = buf := by
  unfold encrypt_packet at hv2 ⊢
  rw [if_pos hv] at hv2 ⊢
  unfold decrypt_packet
  rw [if_pos hv2]
  rw [deinterleaveFlip_interleaveFlip]
  rw [swap_multiples_eq_spec, swap_multiples_eq_spec]
  exact swapMultiplesSpec_invol m buf

/-- Witness for the amended claim C3 at the documentation example buffer
with multiple 6. -/
theorem claim_C3_witness :
    decrypt_packet (encrypt_packet
        [21, 18, 145, 72, 101, 108, 108, 111, 44, 32, 119, 111, 114, 108, 100, 33] 6) 6
      = [21, 18, 145, 72, 101, 108, 108, 111, 44, 32, 119, 111, 114, 108, 100, 33] :=
  claim_C3_packet_cipher_roundtrip
    [21, 18, 145, 72, 101, 108, 108, 111, 44, 32, 119, 111, 114, 108, 100, 33] 6
    (by decide) (by decide) (by decide) (by decide)

end Eolib
